import Mathlib

/-!
Verification of the `assembling` module (src/assembling.py): a generic engine
for line-oriented assemblers.  The Python regular expressions used by the
source are embedded as a small regex AST equipped with Python's
leftmost/greedy backtracking priority, and the two-pass
`Assembler.assemble` pipeline is embedded as executable functions over it.
-/

namespace Assembling

/-- Python character class `\s` (the ASCII whitespace characters of `re`). -/
def isPySpace (c : Char) : Bool :=
  c == ' ' || c == '\t' || c == '\n' || c == '\r' || c == '\x0b' || c == '\x0c'

/-- Python character class `\w`, on its ASCII fragment: letters, digits, underscore. -/
def isPyWord (c : Char) : Bool := c.isAlphanum || c == '_'

/-- Python character class `\d`. -/
def isPyDigit (c : Char) : Bool := c.isDigit

/-- Abstract syntax of the fragment of `re` regular expressions used by the
source: the empty pattern, single-character classes, concatenation,
alternation, numbered capture groups `(...)`, and `*` repetition.
Non-capturing parentheses `(?:...)` only delimit, so they need no
constructor of their own. -/
inductive RE where
  | eps
  | cls (p : Char → Bool)
  | seq (r1 r2 : RE)
  | alt (r1 r2 : RE)
  | group (idx : Nat) (r : RE)
  | star (r : RE)

/-- Captured groups of a match attempt, in completion order; a later entry for
the same index supersedes an earlier one (Python keeps the last occurrence). -/
abbrev Caps := List (Nat × String)

/-- One backtracking matcher step, fuelled so that it is structurally
recursive (and hence kernel-computable).  The returned list enumerates the
pairs (remaining suffix, captured groups) in exactly Python's backtracking
priority order: alternation tries the left branch first, `*` is greedy and
consumes as much as possible first (zero-width repetitions are cut, as
Python's engine cuts empty loop iterations). -/
def matchF : Nat → RE → List Char → List (List Char × Caps)
  | 0, _, _ => []
  | _ + 1, .eps, s => [(s, [])]
  | _ + 1, .cls _, [] => []
  | _ + 1, .cls p, c :: rest => if p c then [(rest, [])] else []
  | fuel + 1, .seq r1 r2, s =>
      (matchF fuel r1 s).flatMap fun p =>
        (matchF fuel r2 p.1).map fun q => (q.1, p.2 ++ q.2)
  | fuel + 1, .alt r1 r2, s => matchF fuel r1 s ++ matchF fuel r2 s
  | fuel + 1, .group i r, s =>
      (matchF fuel r s).map fun p =>
        (p.1, p.2 ++ [(i, String.mk (s.take (s.length - p.1.length)))])
  | fuel + 1, .star r, s =>
      ((matchF fuel r s).flatMap fun p =>
        if p.1.length < s.length then
          (matchF fuel (.star r) p.1).map fun q => (q.1, p.2 ++ q.2)
        else []) ++ [(s, [])]

/-- Structural size of a regex, used to compute sufficient fuel. -/
def reSize : RE → Nat
  | .eps => 1
  | .cls _ => 1
  | .seq r1 r2 => 1 + reSize r1 + reSize r2
  | .alt r1 r2 => 1 + reSize r1 + reSize r2
  | .group _ r => 1 + reSize r
  | .star r => 1 + reSize r

/-- Fuel that is always sufficient for `matchF` (proved by `matchF_stable`). -/
def fuelFor (r : RE) (s : List Char) : Nat := (s.length + 1) * reSize r

/-- All match attempts of `r` against `s`, in Python's backtracking priority
order. -/
def matchList (r : RE) (s : List Char) : List (List Char × Caps) :=
  matchF (fuelFor r s) r s

/-- `re.fullmatch`: the first attempt (in backtracking priority order) that
consumes the whole input; returns its captured groups. -/
def fullmatch (r : RE) (s : List Char) : Option Caps :=
  (matchList r s).findSome? fun p => if p.1 = [] then some p.2 else none

/-- Single literal character. -/
def chrRE (c : Char) : RE := .cls fun d => d == c

/-- Literal string (each character matched literally, as `re.escape`
guarantees for the escaped mnemonic). -/
def litStr : List Char → RE
  | [] => .eps
  | c :: cs => .seq (chrRE c) (litStr cs)

/-- `\s*`. -/
def wsStar : RE := .star (.cls isPySpace)

/-- `.` (any character but a newline). -/
def dotCls : RE := .cls fun c => c != '\n'

/-- The identifier part `(?:_|\w)(?:_|\w|\d)*` of the label regexes
(src/assembling.py lines 59, 61, 72), with the source's redundant
alternations kept as written. -/
def identRE : RE :=
  .seq (.alt (chrRE '_') (.cls isPyWord))
    (.star (.alt (chrRE '_') (.alt (.cls isPyWord) (.cls isPyDigit))))

/-- The label-splitting regex `\s*((?:_|\w)(?:_|\w|\d)*)\s*:(.*)` of
src/assembling.py lines 59 and 61; group 0 is the identifier, group 1 the
statement text after the colon (Python's groups()[0] and groups()[1]). -/
def labelSplitRE : RE :=
  .seq wsStar (.seq (.group 0 identRE)
    (.seq wsStar (.seq (chrRE ':') (.group 1 (.star dotCls)))))

/-- The bare-label (section boundary) regex `\s*((?:_|\w)(?:_|\w|\d)*)\s*:\s*`
of src/assembling.py line 72; group 0 is the section name. -/
def sectionRE : RE :=
  .seq wsStar (.seq (.group 0 identRE) (.seq wsStar (.seq (chrRE ':') wsStar)))

/-- Look up a group index in the captured groups; Python reports the last
occurrence captured by the group. -/
def capLookup (caps : Caps) (k : Nat) : Option String :=
  ((caps.filter fun p => p.1 == k).map fun p => p.2).getLast?

/-- Python's `match.groups()` for a pattern with `n` groups: the captured
texts by group index, `none` for a group that did not participate. -/
def pyGroups (n : Nat) (caps : Caps) : List (Option String) :=
  (List.range n).map fun k => capLookup caps k

/-- `Instruction` (src/assembling.py lines 5-22): a mnemonic, the ordered
argument grammars (regexes), and the formatting function receiving the
captured argument texts (`format`, line 17-19, forwards them positionally). -/
structure Instruction where
  mnemonic : String
  arguments : List RE
  formatter : List (Option String) → String

/-- `\s*,\s*`, the argument separator of src/assembling.py line 10. -/
def sepRE : RE := .seq wsStar (.seq (chrRE ',') wsStar)

/-- The `(?:" + r'\s*,\s*'.join(f"({arg_syntax})" ...) + ")` part of
src/assembling.py line 10: each grammar becomes capture group `k`, groups
are separated by `\s*,\s*`, zero arguments give the empty `(?:)`. -/
def argsRE : List RE → Nat → RE
  | [], _ => .eps
  | [g], k => .group k g
  | g :: gs, k => .seq (.group k g) (.seq sepRE (argsRE gs (k + 1)))

/-- The full instruction pattern `(?:\s*{re.escape(mnemonic)}\s*{args}\s*)` of
src/assembling.py line 11; `re.escape` makes the mnemonic match itself
literally, so it is embedded as a literal string. -/
def Instruction.patternRE (i : Instruction) : RE :=
  .seq wsStar (.seq (litStr i.mnemonic.toList)
    (.seq wsStar (.seq (argsRE i.arguments 0) wsStar)))

/-- Number of capture groups a grammar AST contributes to the compiled
pattern (its group constructors, substituted verbatim by line 10). -/
def reGroupCount : RE → Nat
  | .eps => 0
  | .cls _ => 0
  | .seq r1 r2 => reGroupCount r1 + reGroupCount r2
  | .alt r1 r2 => reGroupCount r1 + reGroupCount r2
  | .group _ r => 1 + reGroupCount r
  | .star r => reGroupCount r

/-- Number of capture groups of the compiled pattern of line 11: one wrapping
group per argument plus every group an argument grammar itself contains.
This is the length of Python's `match.groups()` for this pattern, which is
what `format(*i.groups())` on line 92 passes to the formatter. -/
def Instruction.numGroups (i : Instruction) : Nat :=
  i.arguments.length + (i.arguments.map reGroupCount).sum

/-- `InstructionSet` (src/assembling.py lines 24-36): the ordered instruction
table and the two section-boundary formatters. -/
structure InstructionSet where
  instructions : List Instruction
  section_start_formatter : String → String
  section_end_formatter : String → String

/-- `Assembler` (src/assembling.py lines 42-48): prologue text, epilogue text,
and the instruction set. -/
structure Assembler where
  start_formatter : String
  end_formatter : String
  instruction_set : InstructionSet

/-- The exceptions `Assembler.assemble` can raise: `AssemblerError(msg)`
(a `SyntaxError` subclass, line 38-40) and the `TypeError` that `bytes(str)`
raises on line 101. -/
inductive PyExn where
  | assemblerError (msg : String)
  | typeError (msg : String)
deriving DecidableEq

/-- The declared result type `str | bytes` of `assemble` (line 50). -/
inductive AsmOutput where
  | text (s : String)
  | binary (b : List Nat)
deriving DecidableEq

/-- `re.sub(r";.*", "", text)` (lines 58 and 70): from each `;` on, characters
up to (not including) the next newline are removed.  The `Bool` state records
whether we are inside a comment. -/
def stripAux : Bool → List Char → List Char
  | _, [] => []
  | true, '\n' :: rest => '\n' :: stripAux false rest
  | true, _ :: rest => stripAux true rest
  | false, ';' :: rest => stripAux true rest
  | false, c :: rest => c :: stripAux false rest

/-- Python `str.splitlines` restricted to `\n` separators: no trailing empty
line for a trailing newline, and the empty string has no lines. -/
def splitLinesChars : List Char → List (List Char)
  | [] => []
  | '\n' :: rest => [] :: splitLinesChars rest
  | c :: rest =>
    match splitLinesChars rest with
    | [] => [[c]]
    | l :: ls => (c :: l) :: ls

/-- `(re.sub(r";.*", "", text)).splitlines()` as used by both passes. -/
def linesOf (text : String) : List String :=
  (splitLinesChars (stripAux false text.toList)).map String.mk

/-- `"\n".join(...)` (lines 67 and 100). -/
def joinWithNl : List String → String
  | [] => ""
  | [s] => s
  | s :: rest => s ++ "\n" ++ joinWithNl rest

/-- Pass 1 treatment of one line (lines 59-65): if the line matches the
label regex, reject a second chained label, otherwise split it into the
label prefix `line[:len(line) - len(statement)]` and the statement text;
a line without a label prefix passes through unchanged. -/
def splitLabel (line : String) : Except String (List String) :=
  match fullmatch labelSplitRE line.toList with
  | some caps =>
    let statement := (capLookup caps 1).getD ""
    match fullmatch labelSplitRE statement.toList with
    | some _ =>
        .error "can't have a more than one label in one line; separate labels with newlines"
    | none => .ok [String.mk (line.toList.take (line.length - statement.length)), statement]
  | none => .ok [line]

/-- Pass 1 over all lines, stopping at the first rejected line. -/
def splitAll : List String → Except String (List String)
  | [] => .ok []
  | l :: rest =>
    match splitLabel l with
    | .error e => .error e
    | .ok parts =>
      match splitAll rest with
      | .error e => .error e
      | .ok others => .ok (parts ++ others)

/-- The label-normalised text `new_text` of src/assembling.py lines 55-67. -/
def rewriteText (text : String) : Except String String :=
  match splitAll (linesOf text) with
  | .error e => .error e
  | .ok ls => .ok (joinWithNl ls)

/-- `not line or not line.strip()` (line 80). -/
def isBlank (line : String) : Bool := line.toList.all isPySpace

/-- First instruction of the table whose full pattern matches the line,
with its captured groups (lines 87-94: table order, first match wins). -/
def findMatch : List Instruction → String → Option (Instruction × Caps)
  | [], _ => none
  | i :: rest, line =>
    match fullmatch i.patternRE line.toList with
    | some caps => some (i, caps)
    | none => findMatch rest line

/-- The main pass (src/assembling.py lines 70-96) over the rewritten lines:
`ln` is the 0-based line number, `sections` the `sections_started` counter,
`last` the `last_section_name` variable.  Returns the emitted entries and the
final `last_section_name`.  Note line 74 emits `section_end_formatter` applied
to the groups of the *current* line's match - the new section's name.  On a
matched statement, line 92 runs `format(*i.groups())`: one positional
argument per capture group of the compiled pattern (`numGroups`). -/
def mainPass (iset : InstructionSet) :
    List String → Nat → Nat → String → Except String (List String × String)
  | [], _, _, last => .ok ([], last)
  | line :: rest, ln, sections, last =>
    match fullmatch sectionRE line.toList with
    | some caps =>
      let name := (capLookup caps 0).getD ""
      match mainPass iset rest (ln + 1) (sections + 1) name with
      | .error e => .error e
      | .ok (res, l) =>
        .ok ((if sections ≠ 0 then [iset.section_end_formatter name] else []) ++
              iset.section_start_formatter name :: res, l)
    | none =>
      if isBlank line then mainPass iset rest (ln + 1) sections last
      else
        match findMatch iset.instructions line with
        | some ic =>
          if sections = 0 then
            .error ("statement in line " ++ toString (ln + 1) ++ " out of section")
          else
            match mainPass iset rest (ln + 1) sections last with
            | .error e => .error e
            | .ok (res, l) =>
              .ok (ic.1.formatter (pyGroups ic.1.numGroups ic.2) :: res, l)
        | none =>
          .error ("invalid syntax at line " ++ toString (ln + 1) ++
            " (as specified by given instruction set)")

/-- `"\n".join(filter(None, [self.start_formatter] + result + [self.end_formatter]))`
(line 100): empty (falsy) entries are dropped before joining. -/
def joinOutput (start : String) (entries : List String) (stop : String) : String :=
  joinWithNl (((start :: entries) ++ [stop]).filter fun s => s != "")

/-- `Assembler.assemble` up to the final text/bytes choice: the empty-input
check (line 52), pass 1 (lines 58-67), the main pass (lines 70-96), the final
`section_end_formatter(last_section_name)` appended after the loop (line 98;
the `except AttributeError` arm of line 99 is unreachable for the total
formatter functions of this model), and the final join (line 100). -/
def assembleJoined (a : Assembler) (text : String) : Except String String :=
  if text.toList.all isPySpace then .error "no code to assemble"
  else
    match rewriteText text with
    | .error e => .error e
    | .ok nt =>
      match mainPass a.instruction_set (linesOf nt) 0 0 "" with
      | .error e => .error e
      | .ok (res, last) =>
        .ok (joinOutput a.start_formatter
              (res ++ [a.instruction_set.section_end_formatter last]) a.end_formatter)

/-- `Assembler.assemble` (lines 50-101).  Line 101 runs
`bytes(_result) if binary_output else str(_result)`; `bytes` applied to a
`str` without an encoding raises `TypeError("string argument without an
encoding")`, so the binary branch never returns normally. -/
def assemble (a : Assembler) (text : String) (binary_output : Bool) :
    Except PyExn AsmOutput :=
  match assembleJoined a text with
  | .error msg => .error (.assemblerError msg)
  | .ok j =>
    if binary_output then .error (.typeError "string argument without an encoding")
    else .ok (.text j)

/-- `\w+` as a regex AST (a common argument grammar). -/
def wordPlusRE : RE := .seq (.cls isPyWord) (.star (.cls isPyWord))

/-- A concrete no-argument instruction `nop`, emitting `NOP`. -/
def nopInstr : Instruction := ⟨"nop", [], fun _ => "NOP"⟩

/-- A concrete instruction set: `nop` plus bracketing section formatters. -/
def demoSet : InstructionSet :=
  ⟨[nopInstr], fun n => "START " ++ n, fun n => "END " ++ n⟩

/-- A concrete assembler over `demoSet` with empty prologue and epilogue. -/
def demoAsm : Assembler := ⟨"", "", demoSet⟩

/-- An instruction whose mnemonic starts with a space (allowed by the source,
which accepts any string as mnemonic). -/
def spaceMovInstr : Instruction := ⟨" mov", [wordPlusRE, wordPlusRE], fun _ => "MOV"⟩

/-- An assembler whose only instruction has the mnemonic `" mov"`. -/
def spaceAsm : Assembler :=
  ⟨"", "", ⟨[spaceMovInstr], fun n => "START " ++ n, fun n => "END " ++ n⟩⟩

/-- A concrete formatter for two-argument instructions. -/
def demoFmt : List (Option String) → String := fun _ => "MOV"

/-- A two-argument `mov` instruction over `\w+` grammars. -/
def movInstr : Instruction := ⟨"mov", [wordPlusRE, wordPlusRE], demoFmt⟩

/-- An assembler whose only instruction is `movInstr`. -/
def movAsm : Assembler :=
  ⟨"", "", ⟨[movInstr], fun n => "START " ++ n, fun n => "END " ++ n⟩⟩


/-! ### Engine lemmas: the fuelled matcher stabilises at `fuelFor` -/

theorem one_le_reSize (r : RE) : 1 ≤ reSize r := by
  cases r <;> simp [reSize] <;> omega

theorem one_le_fuelFor (r : RE) (s : List Char) : 1 ≤ fuelFor r s := by
  have h := one_le_reSize r
  have : 1 * 1 ≤ (s.length + 1) * reSize r :=
    Nat.mul_le_mul (by omega) h
  simpa [fuelFor] using this

theorem flatMapCongr {α β : Type} {l : List α} {f g : α → List β}
    (h : ∀ a ∈ l, f a = g a) : l.flatMap f = l.flatMap g := by
  induction l with
  | nil => rfl
  | cons a l ih =>
    simp only [List.flatMap_cons]
    rw [h a (List.mem_cons_self a l), ih fun b hb => h b (List.mem_cons_of_mem a hb)]

theorem matchF_succ_eps (f : Nat) (s : List Char) : matchF (f + 1) .eps s = [(s, [])] := rfl

theorem matchF_succ_cls (f : Nat) (p : Char → Bool) (s : List Char) :
    matchF (f + 1) (.cls p) s =
      (match s with
       | [] => []
       | c :: rest => if p c then [(rest, [])] else []) := by
  cases s <;> rfl

theorem matchF_succ_seq (f : Nat) (r1 r2 : RE) (s : List Char) :
    matchF (f + 1) (.seq r1 r2) s =
      (matchF f r1 s).flatMap fun p =>
        (matchF f r2 p.1).map fun q => (q.1, p.2 ++ q.2) := rfl

theorem matchF_succ_alt (f : Nat) (r1 r2 : RE) (s : List Char) :
    matchF (f + 1) (.alt r1 r2) s = matchF f r1 s ++ matchF f r2 s := rfl

theorem matchF_succ_group (f i : Nat) (r : RE) (s : List Char) :
    matchF (f + 1) (.group i r) s =
      (matchF f r s).map fun p =>
        (p.1, p.2 ++ [(i, String.mk (s.take (s.length - p.1.length)))]) := rfl

theorem matchF_succ_star (f : Nat) (r : RE) (s : List Char) :
    matchF (f + 1) (.star r) s =
      ((matchF f r s).flatMap fun p =>
        if p.1.length < s.length then
          (matchF f (.star r) p.1).map fun q => (q.1, p.2 ++ q.2)
        else []) ++ [(s, [])] := rfl

theorem matchF_noExt :
    ∀ (fuel : Nat) (r : RE) (s : List Char) (p : List Char × Caps),
      p ∈ matchF fuel r s → p.1.length ≤ s.length := by
  intro fuel
  induction fuel with
  | zero => intro r s p hp; simp [matchF] at hp
  | succ f ih =>
    intro r s p hp
    cases r with
    | eps =>
      simp only [matchF, List.mem_singleton] at hp
      subst hp; exact le_refl _
    | cls q =>
      cases s with
      | nil => simp [matchF] at hp
      | cons c rest =>
        by_cases hq : q c <;> simp [matchF, hq] at hp
        subst hp; simp
    | seq r1 r2 =>
      simp only [matchF, List.mem_flatMap, List.mem_map] at hp
      obtain ⟨a, ha, q, hq, rfl⟩ := hp
      exact le_trans (ih r2 a.1 q hq) (ih r1 s a ha)
    | alt r1 r2 =>
      simp only [matchF, List.mem_append] at hp
      rcases hp with hp | hp
      · exact ih r1 s p hp
      · exact ih r2 s p hp
    | group i r =>
      simp only [matchF, List.mem_map] at hp
      obtain ⟨a, ha, rfl⟩ := hp
      exact ih r s a ha
    | star r =>
      simp only [matchF, List.mem_append, List.mem_flatMap, List.mem_singleton] at hp
      rcases hp with ⟨a, ha, hm⟩ | hp
      · by_cases hlt : a.1.length < s.length
        · simp only [hlt, if_true, List.mem_map] at hm
          obtain ⟨q, hq, rfl⟩ := hm
          exact le_trans (ih (.star r) a.1 q hq) (le_of_lt hlt)
        · simp [hlt] at hm
      · subst hp; exact le_refl _

theorem fuel_seq_left {r1 r2 : RE} {s : List Char} {f : Nat}
    (h : fuelFor (.seq r1 r2) s ≤ f + 1) : fuelFor r1 s ≤ f := by
  have e1 : fuelFor (RE.seq r1 r2) s =
      (s.length + 1) * (1 + reSize r2) + (s.length + 1) * reSize r1 := by
    simp [fuelFor, reSize]; ring
  have e2 : 1 ≤ (s.length + 1) * (1 + reSize r2) :=
    Nat.one_le_iff_ne_zero.mpr (Nat.mul_ne_zero (by omega) (by omega))
  rw [e1] at h
  unfold fuelFor
  omega

theorem fuel_seq_right {r1 r2 : RE} {s t : List Char} {f : Nat}
    (ht : t.length ≤ s.length)
    (h : fuelFor (.seq r1 r2) s ≤ f + 1) : fuelFor r2 t ≤ f := by
  have e1 : fuelFor (RE.seq r1 r2) s =
      (s.length + 1) * (1 + reSize r1) + (s.length + 1) * reSize r2 := by
    simp [fuelFor, reSize]; ring
  have e2 : 1 ≤ (s.length + 1) * (1 + reSize r1) :=
    Nat.one_le_iff_ne_zero.mpr (Nat.mul_ne_zero (by omega) (by omega))
  have e3 : (t.length + 1) * reSize r2 ≤ (s.length + 1) * reSize r2 :=
    Nat.mul_le_mul_right _ (by omega)
  rw [e1] at h
  unfold fuelFor
  omega

theorem fuel_alt_left {r1 r2 : RE} {s : List Char} {f : Nat}
    (h : fuelFor (.alt r1 r2) s ≤ f + 1) : fuelFor r1 s ≤ f := by
  have e1 : fuelFor (RE.alt r1 r2) s =
      (s.length + 1) * (1 + reSize r2) + (s.length + 1) * reSize r1 := by
    simp [fuelFor, reSize]; ring
  have e2 : 1 ≤ (s.length + 1) * (1 + reSize r2) :=
    Nat.one_le_iff_ne_zero.mpr (Nat.mul_ne_zero (by omega) (by omega))
  rw [e1] at h
  unfold fuelFor
  omega

theorem fuel_alt_right {r1 r2 : RE} {s : List Char} {f : Nat}
    (h : fuelFor (.alt r1 r2) s ≤ f + 1) : fuelFor r2 s ≤ f := by
  have e1 : fuelFor (RE.alt r1 r2) s =
      (s.length + 1) * (1 + reSize r1) + (s.length + 1) * reSize r2 := by
    simp [fuelFor, reSize]; ring
  have e2 : 1 ≤ (s.length + 1) * (1 + reSize r1) :=
    Nat.one_le_iff_ne_zero.mpr (Nat.mul_ne_zero (by omega) (by omega))
  rw [e1] at h
  unfold fuelFor
  omega

theorem fuel_group {i : Nat} {r : RE} {s : List Char} {f : Nat}
    (h : fuelFor (.group i r) s ≤ f + 1) : fuelFor r s ≤ f := by
  have e1 : fuelFor (RE.group i r) s =
      (s.length + 1) + (s.length + 1) * reSize r := by
    simp [fuelFor, reSize]; ring
  rw [e1] at h
  unfold fuelFor
  omega

theorem fuel_star_body {r : RE} {s : List Char} {f : Nat}
    (h : fuelFor (.star r) s ≤ f + 1) : fuelFor r s ≤ f := by
  have e1 : fuelFor (RE.star r) s =
      (s.length + 1) + (s.length + 1) * reSize r := by
    simp [fuelFor, reSize]; ring
  rw [e1] at h
  unfold fuelFor
  omega

theorem fuel_star_rec {r : RE} {s t : List Char} {f : Nat}
    (ht : t.length < s.length)
    (h : fuelFor (.star r) s ≤ f + 1) : fuelFor (.star r) t ≤ f := by
  have e1 : fuelFor (RE.star r) s =
      s.length * (1 + reSize r) + (1 + reSize r) := by
    simp [fuelFor, reSize]; ring
  have e3 : (t.length + 1) * (1 + reSize r) ≤ s.length * (1 + reSize r) :=
    Nat.mul_le_mul_right _ (by omega)
  have e4 : 2 ≤ 1 + reSize r := by have := one_le_reSize r; omega
  rw [e1] at h
  have e5 : fuelFor (RE.star r) t = (t.length + 1) * (1 + reSize r) := by
    simp [fuelFor, reSize]
  rw [e5]
  omega

theorem matchF_stable_succ :
    ∀ (f : Nat) (r : RE) (s : List Char), fuelFor r s ≤ f → matchF (f + 1) r s = matchF f r s := by
  intro f
  induction f with
  | zero =>
    intro r s h
    exact absurd (le_trans (one_le_fuelFor r s) h) (by omega)
  | succ f ih =>
    intro r s h
    cases r with
    | eps => rfl
    | cls q => cases s <;> rfl
    | seq r1 r2 =>
      rw [matchF_succ_seq (f + 1), matchF_succ_seq f, ih r1 s (fuel_seq_left h)]
      exact flatMapCongr fun p hp => by
        rw [ih r2 p.1 (fuel_seq_right (matchF_noExt f r1 s p hp) h)]
    | alt r1 r2 =>
      rw [matchF_succ_alt (f + 1), matchF_succ_alt f,
        ih r1 s (fuel_alt_left h), ih r2 s (fuel_alt_right h)]
    | group i r =>
      rw [matchF_succ_group (f + 1), matchF_succ_group f, ih r s (fuel_group h)]
    | star r =>
      rw [matchF_succ_star (f + 1), matchF_succ_star f, ih r s (fuel_star_body h)]
      congr 1
      exact flatMapCongr fun p hp => by
        by_cases hlt : p.1.length < s.length
        · simp only [hlt, if_true]
          rw [ih (.star r) p.1 (fuel_star_rec hlt h)]
        · simp [hlt]

theorem matchF_stable (r : RE) (s : List Char) :
    ∀ f, fuelFor r s ≤ f → matchF f r s = matchList r s := by
  intro f hf
  induction f, hf using Nat.le_induction with
  | base => rfl
  | succ f hf ih => rw [matchF_stable_succ f r s hf, ih]

theorem matchList_noExt {r : RE} {s : List Char} {p : List Char × Caps}
    (hp : p ∈ matchList r s) : p.1.length ≤ s.length :=
  matchF_noExt _ r s p hp

/-! ### Clean unfolding equations for `matchList` -/

theorem matchList_eps (s : List Char) : matchList .eps s = [(s, [])] := by
  rw [matchList, show fuelFor .eps s = s.length + 1 by simp [fuelFor, reSize]]
  simp [matchF]

theorem matchList_cls_nil (p : Char → Bool) : matchList (.cls p) [] = [] := by
  rw [matchList, show fuelFor (.cls p) [] = 0 + 1 by simp [fuelFor, reSize]]
  simp [matchF]

theorem matchList_cls_cons (p : Char → Bool) (c : Char) (rest : List Char) :
    matchList (.cls p) (c :: rest) = if p c then [(rest, [])] else [] := by
  rw [matchList,
    show fuelFor (.cls p) (c :: rest) = (c :: rest).length + 1 by simp [fuelFor, reSize]]
  simp [matchF]

theorem matchList_seq (r1 r2 : RE) (s : List Char) :
    matchList (.seq r1 r2) s =
      (matchList r1 s).flatMap fun p =>
        (matchList r2 p.1).map fun q => (q.1, p.2 ++ q.2) := by
  obtain ⟨k, hk⟩ : ∃ k, fuelFor (.seq r1 r2) s = k + 1 :=
    ⟨_, (Nat.succ_pred_eq_of_pos (one_le_fuelFor _ _)).symm⟩
  rw [matchList, hk, matchF_succ_seq, matchF_stable r1 s k (fuel_seq_left hk.le)]
  exact flatMapCongr fun p hp => by
    rw [matchF_stable r2 p.1 k (fuel_seq_right (matchList_noExt hp) hk.le)]

theorem matchList_alt (r1 r2 : RE) (s : List Char) :
    matchList (.alt r1 r2) s = matchList r1 s ++ matchList r2 s := by
  obtain ⟨k, hk⟩ : ∃ k, fuelFor (.alt r1 r2) s = k + 1 :=
    ⟨_, (Nat.succ_pred_eq_of_pos (one_le_fuelFor _ _)).symm⟩
  rw [matchList, hk, matchF_succ_alt, matchF_stable r1 s k (fuel_alt_left hk.le),
    matchF_stable r2 s k (fuel_alt_right hk.le)]

theorem matchList_group (i : Nat) (r : RE) (s : List Char) :
    matchList (.group i r) s =
      (matchList r s).map fun p =>
        (p.1, p.2 ++ [(i, String.mk (s.take (s.length - p.1.length)))]) := by
  obtain ⟨k, hk⟩ : ∃ k, fuelFor (.group i r) s = k + 1 :=
    ⟨_, (Nat.succ_pred_eq_of_pos (one_le_fuelFor _ _)).symm⟩
  rw [matchList, hk, matchF_succ_group, matchF_stable r s k (fuel_group hk.le)]

theorem matchList_star (r : RE) (s : List Char) :
    matchList (.star r) s =
      ((matchList r s).flatMap fun p =>
        if p.1.length < s.length then
          (matchList (.star r) p.1).map fun q => (q.1, p.2 ++ q.2)
        else []) ++ [(s, [])] := by
  obtain ⟨k, hk⟩ : ∃ k, fuelFor (.star r) s = k + 1 :=
    ⟨_, (Nat.succ_pred_eq_of_pos (one_le_fuelFor _ _)).symm⟩
  rw [matchList, hk, matchF_succ_star, matchF_stable r s k (fuel_star_body hk.le)]
  congr 1
  exact flatMapCongr fun p hp => by
    by_cases hlt : p.1.length < s.length
    · simp only [hlt, if_true]
      rw [matchF_stable (.star r) p.1 k (fuel_star_rec hlt hk.le)]
    · simp [hlt]


/-! ### Greedy `\\s*` prefixes and literal mnemonics -/

theorem star_cls_cons {p : Char → Bool} {c : Char} (hc : p c = true) (s : List Char) :
    matchList (.star (.cls p)) (c :: s) =
      matchList (.star (.cls p)) s ++ [(c :: s, [])] := by
  rw [matchList_star, matchList_cls_cons]
  simp [hc, Nat.lt_succ_iff]

theorem seq_wsStar_cons {Q : RE} {c : Char} (hc : isPySpace c = true) (s : List Char) :
    matchList (.seq wsStar Q) (c :: s) =
      matchList (.seq wsStar Q) s ++ matchList Q (c :: s) := by
  rw [matchList_seq, show wsStar = RE.star (.cls isPySpace) from rfl, star_cls_cons hc,
    List.flatMap_append, ← matchList_seq,
    show RE.star (.cls isPySpace) = wsStar from rfl]
  simp

theorem seq_litStr_cons_ne {c0 : Char} {M : List Char} {R : RE} {d : Char}
    (hd : (d == c0) = false) (s : List Char) :
    matchList (.seq (litStr (c0 :: M)) R) (d :: s) = [] := by
  rw [show litStr (c0 :: M) = .seq (chrRE c0) (litStr M) from rfl, matchList_seq,
    matchList_seq, show chrRE c0 = RE.cls (fun d => d == c0) from rfl,
    matchList_cls_cons]
  simp [hd]

theorem fullmatch_patternRE_cons_space (i : Instruction) {c0 : Char} {M : List Char}
    (hm : i.mnemonic.toList = c0 :: M) (hws : isPySpace c0 = false) (s : List Char) :
    fullmatch i.patternRE (' ' :: s) = fullmatch i.patternRE s := by
  have hne : ((' ' : Char) == c0) = false := by
    have hno : (' ' : Char) ≠ c0 := by
      intro he
      rw [← he] at hws
      exact absurd hws (by simp [isPySpace])
    exact beq_eq_false_iff_ne.mpr hno
  have hpat : i.patternRE = .seq wsStar (.seq (litStr (c0 :: M))
      (.seq wsStar (.seq (argsRE i.arguments 0) wsStar))) := by
    rw [Instruction.patternRE, hm]
  rw [fullmatch, fullmatch, hpat,
    seq_wsStar_cons (show isPySpace ' ' = true from rfl),
    seq_litStr_cons_ne hne, List.append_nil]

theorem findMatch_cons_space (insts : List Instruction)
    (hm : ∀ i ∈ insts, ∃ c M, i.mnemonic.toList = c :: M ∧ isPySpace c = false)
    (s : List Char) :
    findMatch insts (String.mk (' ' :: s)) = findMatch insts (String.mk s) := by
  induction insts with
  | nil => rfl
  | cons i rest ih =>
    obtain ⟨c, M, hcm, hws⟩ := hm i (List.mem_cons_self i rest)
    have hrest : ∀ j ∈ rest, ∃ c M, j.mnemonic.toList = c :: M ∧ isPySpace c = false :=
      fun j hj => hm j (List.mem_cons_of_mem i hj)
    show (match fullmatch i.patternRE (String.mk (' ' :: s)).toList with
          | some caps => some (i, caps)
          | none => findMatch rest (String.mk (' ' :: s))) =
         (match fullmatch i.patternRE (String.mk s).toList with
          | some caps => some (i, caps)
          | none => findMatch rest (String.mk s))
    have h1 : (String.mk (' ' :: s)).toList = ' ' :: s := rfl
    have h2 : (String.mk s).toList = s := rfl
    rw [h1, h2, fullmatch_patternRE_cons_space i hcm hws]
    cases fullmatch i.patternRE s with
    | some caps => rfl
    | none => exact ih hrest

/-! ### Membership (existence of matches) -/

theorem matchList_seq_intro {r1 r2 : RE} {s t u : List Char} {c1 c2 : Caps}
    (h1 : (t, c1) ∈ matchList r1 s) (h2 : (u, c2) ∈ matchList r2 t) :
    (u, c1 ++ c2) ∈ matchList (.seq r1 r2) s := by
  rw [matchList_seq]
  exact List.mem_flatMap.mpr ⟨(t, c1), h1, List.mem_map.mpr ⟨(u, c2), h2, rfl⟩⟩

theorem matchList_star_self (r : RE) (s : List Char) : (s, []) ∈ matchList (.star r) s := by
  rw [matchList_star]
  simp

theorem matchList_litStr_self (M l : List Char) : (l, []) ∈ matchList (litStr M) (M ++ l) := by
  induction M with
  | nil =>
    rw [show litStr [] = RE.eps from rfl, matchList_eps]
    simp
  | cons c M ih =>
    rw [show litStr (c :: M) = RE.seq (chrRE c) (litStr M) from rfl]
    have h1 : (M ++ l, []) ∈ matchList (chrRE c) ((c :: M) ++ l) := by
      rw [show chrRE c = RE.cls (fun d => d == c) from rfl, List.cons_append,
        matchList_cls_cons]
      simp
    have := matchList_seq_intro h1 ih
    simpa using this

theorem matchList_group_full {i : Nat} {r : RE} {s : List Char} {c : Caps}
    (h : ([], c) ∈ matchList r s) :
    ([], c ++ [(i, String.mk s)]) ∈ matchList (.group i r) s := by
  rw [matchList_group]
  exact List.mem_map.mpr ⟨([], c), h, by simp⟩

theorem findSome_full_mem :
    ∀ (l : List (List Char × Caps)) (caps : Caps),
      (l.findSome? fun p => if p.1 = [] then some p.2 else none) = some caps →
      ([], caps) ∈ l := by
  intro l
  induction l with
  | nil => intro caps h; simp [List.findSome?_nil] at h
  | cons p l ih =>
    intro caps h
    rw [List.findSome?_cons] at h
    by_cases h1 : p.1 = []
    · simp only [h1, if_true] at h
      have : p.2 = caps := by injection h
      have hp : p = ([], caps) := by
        cases p with
        | mk a b => simp at h1 this; rw [h1, this]
      rw [← hp]
      exact List.mem_cons_self p l
    · simp only [h1, if_false] at h
      exact List.mem_cons_of_mem p (ih caps h)

theorem fullmatch_isSome_of_mem {r : RE} {s : List Char} {c : Caps}
    (h : ([], c) ∈ matchList r s) : (fullmatch r s).isSome = true := by
  rw [fullmatch]
  cases hf : (matchList r s).findSome? fun p => if p.1 = [] then some p.2 else none with
  | some c2 => rfl
  | none =>
    exfalso
    have := List.findSome?_eq_none_iff.mp hf ([], c) h
    simp at this

theorem mem_of_fullmatch {r : RE} {s : List Char} {caps : Caps}
    (h : fullmatch r s = some caps) : ([], caps) ∈ matchList r s :=
  findSome_full_mem _ caps h


/-! ### Counting capture groups in pattern strings -/

theorem toList_append (a b : String) : (a ++ b).toList = a.toList ++ b.toList :=
  String.data_append a b

theorem pySpace_not_word {c : Char} (h : isPySpace c = true) : isPyWord c = false := by
  simp only [isPySpace, Bool.or_eq_true, beq_iff_eq] at h
  rcases h with ((((h | h) | h) | h) | h) | h <;> subst h <;> decide

theorem pySpace_ne_underscore {c : Char} (h : isPySpace c = true) : (c == '_') = false := by
  simp only [isPySpace, Bool.or_eq_true, beq_iff_eq] at h
  rcases h with ((((h | h) | h) | h) | h) | h <;> subst h <;> decide

theorem identRE_head_fail {R : RE} {t : List Char}
    (h : t = [] ∨ ∃ c t2, t = c :: t2 ∧ (c == '_') = false ∧ isPyWord c = false) :
    matchList (.seq (.group 0 identRE) R) t = [] := by
  have hident : matchList identRE t = [] := by
    rw [show identRE = RE.seq (.alt (chrRE '_') (.cls isPyWord))
      (.star (.alt (chrRE '_') (.alt (.cls isPyWord) (.cls isPyDigit)))) from rfl,
      matchList_seq]
    rcases h with rfl | ⟨c, t2, rfl, h1, h2⟩
    · rw [matchList_alt, show chrRE '_' = RE.cls (fun d => d == '_') from rfl,
        matchList_cls_nil, matchList_cls_nil]
      rfl
    · rw [matchList_alt, show chrRE '_' = RE.cls (fun d => d == '_') from rfl,
        matchList_cls_cons, matchList_cls_cons, h1, h2]
      rfl
  rw [matchList_seq, matchList_group, hident]
  rfl

theorem matchList_sectionRE_blank :
    ∀ (t : List Char), (∀ c ∈ t, isPySpace c = true) → matchList sectionRE t = [] := by
  have hQ : ∀ (R : RE) (u : List Char), (u = [] ∨ ∃ c u2, u = c :: u2 ∧ isPySpace c = true) →
      matchList (.seq (.group 0 identRE) R) u = [] := by
    intro R u hu
    apply identRE_head_fail
    rcases hu with rfl | ⟨c, u2, rfl, hc⟩
    · exact Or.inl rfl
    · exact Or.inr ⟨c, u2, rfl, pySpace_ne_underscore hc, pySpace_not_word hc⟩
  intro t
  induction t with
  | nil =>
    intro _
    rw [show sectionRE = RE.seq wsStar (.seq (.group 0 identRE)
      (.seq wsStar (.seq (chrRE ':') wsStar))) from rfl, matchList_seq]
    rw [show wsStar = RE.star (.cls isPySpace) from rfl, matchList_star, matchList_cls_nil]
    simp only [List.flatMap_nil, List.nil_append, List.flatMap_cons, List.flatMap_nil,
      List.append_nil, List.singleton_append]
    rw [hQ _ [] (Or.inl rfl)]
    rfl
  | cons c t2 ih =>
    intro hall
    have hc : isPySpace c = true := hall c (List.mem_cons_self c t2)
    have ht2 : ∀ d ∈ t2, isPySpace d = true := fun d hd => hall d (List.mem_cons_of_mem c hd)
    rw [show sectionRE = RE.seq wsStar (.seq (.group 0 identRE)
      (.seq wsStar (.seq (chrRE ':') wsStar))) from rfl] at ih ⊢
    rw [seq_wsStar_cons hc, ih ht2, hQ _ (c :: t2) (Or.inr ⟨c, t2, rfl, hc⟩)]
    rfl

theorem fullmatch_sectionRE_blank {line : String} (h : isBlank line = true) :
    fullmatch sectionRE line.toList = none := by
  rw [fullmatch, matchList_sectionRE_blank line.toList (by
    intro c hc
    exact List.all_eq_true.mp h c hc)]
  rfl

/-! ### The main pass on all-blank line lists -/

theorem mainPass_all_blank (iset : InstructionSet) :
    ∀ (lines : List String), (∀ l ∈ lines, isBlank l = true) →
      ∀ (ln : Nat) (last : String), mainPass iset lines ln 0 last = .ok ([], last) := by
  intro lines
  induction lines with
  | nil => intro _ ln last; rfl
  | cons line rest ih =>
    intro h ln last
    have hline : isBlank line = true := h line (List.mem_cons_self line rest)
    have hrest : ∀ l ∈ rest, isBlank l = true := fun l hl => h l (List.mem_cons_of_mem line hl)
    show (match fullmatch sectionRE line.toList with
      | some caps => _
      | none => _) = _
    rw [fullmatch_sectionRE_blank hline]
    simp only [hline, if_true]
    exact ih hrest (ln + 1) last


/-! ### One-step behaviour of the main pass and of `assemble` -/

theorem mainPass_section (iset : InstructionSet) (line : String) (rest : List String)
    (ln sections : Nat) (last : String) (caps : Caps)
    (hsec : fullmatch sectionRE line.toList = some caps) :
    mainPass iset (line :: rest) ln sections last =
      match mainPass iset rest (ln + 1) (sections + 1) ((capLookup caps 0).getD "") with
      | .error e => .error e
      | .ok (res, l) =>
        .ok ((if sections ≠ 0 then
            [iset.section_end_formatter ((capLookup caps 0).getD "")] else []) ++
          iset.section_start_formatter ((capLookup caps 0).getD "") :: res, l) := by
  simp only [mainPass, hsec]

theorem mainPass_blank (iset : InstructionSet) (line : String) (rest : List String)
    (ln sections : Nat) (last : String)
    (hsec : fullmatch sectionRE line.toList = none) (hb : isBlank line = true) :
    mainPass iset (line :: rest) ln sections last =
      mainPass iset rest (ln + 1) sections last := by
  simp only [mainPass, hsec, hb, if_true]

theorem mainPass_stmt_ok (iset : InstructionSet) (line : String) (rest : List String)
    (ln sections : Nat) (last : String) (inst : Instruction) (caps : Caps)
    (hsec : fullmatch sectionRE line.toList = none) (hb : isBlank line = false)
    (hfm : findMatch iset.instructions line = some (inst, caps))
    (hs : ¬sections = 0) :
    mainPass iset (line :: rest) ln sections last =
      match mainPass iset rest (ln + 1) sections last with
      | .error e => .error e
      | .ok (res, l) =>
        .ok (inst.formatter (pyGroups inst.numGroups caps) :: res, l) := by
  simp only [mainPass, hsec, hb, Bool.false_eq_true, if_false, hfm, hs]

theorem mainPass_stmt_out (iset : InstructionSet) (line : String) (rest : List String)
    (ln sections : Nat) (last : String) (inst : Instruction) (caps : Caps)
    (hsec : fullmatch sectionRE line.toList = none) (hb : isBlank line = false)
    (hfm : findMatch iset.instructions line = some (inst, caps))
    (hs : sections = 0) :
    mainPass iset (line :: rest) ln sections last =
      .error ("statement in line " ++ toString (ln + 1) ++ " out of section") := by
  simp only [mainPass, hsec, hb, Bool.false_eq_true, if_false, hfm, hs, if_true]

theorem mainPass_stmt_none (iset : InstructionSet) (line : String) (rest : List String)
    (ln sections : Nat) (last : String)
    (hsec : fullmatch sectionRE line.toList = none) (hb : isBlank line = false)
    (hfm : findMatch iset.instructions line = none) :
    mainPass iset (line :: rest) ln sections last =
      .error ("invalid syntax at line " ++ toString (ln + 1) ++
        " (as specified by given instruction set)") := by
  simp only [mainPass, hsec, hb, Bool.false_eq_true, if_false, hfm]

theorem assembleJoined_steps (a : Assembler) (text nt : String)
    (hs : text.toList.all isPySpace = false)
    (hrw : rewriteText text = .ok nt) :
    assembleJoined a text =
      match mainPass a.instruction_set (linesOf nt) 0 0 "" with
      | .error e => .error e
      | .ok (res, last) =>
        .ok (joinOutput a.start_formatter
          (res ++ [a.instruction_set.section_end_formatter last]) a.end_formatter) := by
  unfold assembleJoined
  rw [if_neg (by rw [hs]; decide), hrw]

theorem assemble_false_ok {a : Assembler} {text : String} {o : AsmOutput}
    (h : assemble a text false = .ok o) :
    ∃ j, assembleJoined a text = .ok j ∧ o = .text j := by
  unfold assemble at h
  cases hj : assembleJoined a text with
  | error e => rw [hj] at h; exact absurd h (by simp)
  | ok j =>
    rw [hj] at h
    simp only [if_neg (by simp : ¬(false = true))] at h
    injection h with h2
    exact ⟨j, rfl, h2.symm⟩


/-! ### Claims -/

/-- Claim C1: the spec states that when a bare label opens a new section while
one is open, the engine first emits `section_end_formatter` applied to the
*previous* section's name.  Evaluating the code on the spec's own example
shows the code instead emits the *new* section's name (line 74 of the source
passes `s.groups()[0]`, the freshly matched label, to the end formatter):
the third emitted entry is `END sec2`, not `END sec1`. -/
theorem c1_code_eval :
    assemble demoAsm "sec1:\nnop\nsec2:\nnop" false =
      .ok (.text "START sec1\nNOP\nEND sec2\nSTART sec2\nNOP\nEND sec2") ∧
    ("START sec1\nNOP\nEND sec2\nSTART sec2\nNOP\nEND sec2" : String) ≠
      "START sec1\nNOP\nEND sec1\nSTART sec2\nNOP\nEND sec2" := by
  exact ⟨rfl, by decide⟩

/-- Claim C2: the spec states that `binary_output=True` re-encodes the joined
text as bytes.  The code runs `bytes(_result)` on a `str` with no encoding,
which always raises `TypeError`; so whenever the text run succeeds, the
binary run raises instead of returning. -/
theorem c2_binary_raises (a : Assembler) (text : String) (o : AsmOutput)
    (h : assemble a text false = .ok o) :
    assemble a text true = .error (.typeError "string argument without an encoding") := by
  unfold assemble at h ⊢
  cases hj : assembleJoined a text with
  | error e => rw [hj] at h; exact absurd h (by simp)
  | ok j => rfl

/-- Concrete instance of `c2_binary_raises` at an input that assembles as text. -/
theorem c2_binary_raises_witness :
    assemble demoAsm "sec1:\nnop" false = .ok (.text "START sec1\nNOP\nEND sec1") ∧
    assemble demoAsm "sec1:\nnop" true =
      .error (.typeError "string argument without an encoding") :=
  ⟨rfl, c2_binary_raises demoAsm "sec1:\nnop" (.text "START sec1\nNOP\nEND sec1") rfl⟩

/-- Claim C3 counterexample: a statement line before any section that matches
no instruction is rejected as InvalidSyntax, not StatementOutsideSection, so
the "regardless of whether the line matches any instruction" part of the
claim is false: for the table containing only `nop`, input `"xyz"` gives the
invalid-syntax message. -/
theorem c3_counterexample :
    assemble demoAsm "xyz" false =
      .error (.assemblerError "invalid syntax at line 1 (as specified by given instruction set)") ∧
    assemble demoAsm "xyz" false ≠
      .error (.assemblerError "statement in line 1 out of section") := by
  refine ⟨rfl, ?_⟩
  intro h
  rw [show assemble demoAsm "xyz" false = .error (.assemblerError
    "invalid syntax at line 1 (as specified by given instruction set)") from rfl] at h
  injection h with h2
  injection h2 with h3
  exact absurd h3 (by decide)

/-- Claim C3 (amended): a non-blank, non-label line processed while no section
is open (counter `sections_started = 0`) makes the main pass fail with the
StatementOutsideSection message, citing the 1-based number of that line in
the rewritten sequence, *provided the line matches some instruction in the
table*; when no instruction matches, the failure is the InvalidSyntax message
instead (also citing the line number). -/
theorem c3_amended (iset : InstructionSet) (line : String) (rest : List String)
    (ln : Nat) (last : String)
    (hsec : fullmatch sectionRE line.toList = none) (hb : isBlank line = false) :
    (∀ ic : Instruction × Caps, findMatch iset.instructions line = some ic →
      mainPass iset (line :: rest) ln 0 last =
        .error ("statement in line " ++ toString (ln + 1) ++ " out of section")) ∧
    (findMatch iset.instructions line = none →
      mainPass iset (line :: rest) ln 0 last =
        .error ("invalid syntax at line " ++ toString (ln + 1) ++
          " (as specified by given instruction set)")) := by
  constructor
  · intro ic hic
    exact mainPass_stmt_out iset line rest ln 0 last ic.1 ic.2 hsec hb
      (by rw [hic]) rfl
  · intro hnone
    exact mainPass_stmt_none iset line rest ln 0 last hsec hb hnone

/-- Concrete instance of `c3_amended`: the statement `nop` (which matches the
table) on line 1 with no open section. -/
theorem c3_witness :
    fullmatch sectionRE ("nop" : String).toList = none ∧ isBlank "nop" = false ∧
    findMatch demoSet.instructions "nop" = some (nopInstr, []) ∧
    mainPass demoSet ["nop"] 0 0 "" = .error "statement in line 1 out of section" :=
  ⟨rfl, rfl, rfl, (c3_amended demoSet "nop" [] 0 "" rfl rfl).1 (nopInstr, []) rfl⟩

/-- Claim C4 counterexample: for an input consisting only of a comment (so no
section is ever opened), the claim says `section_end_formatter` is not
invoked and contributes nothing; but the code (line 98) invokes it with the
initial `last_section_name = ""` and its non-empty result `"END "` reaches
the output, which the claim says should be empty here. -/
theorem c4_counterexample :
    assemble demoAsm "; just a comment" false = .ok (.text "END ") ∧
    assemble demoAsm "; just a comment" false ≠ .ok (.text "") := by
  refine ⟨rfl, ?_⟩
  intro h
  rw [show assemble demoAsm "; just a comment" false = .ok (.text "END ") from rfl] at h
  injection h with h2
  injection h2 with h3
  exact absurd h3 (by decide)

/-- Claim C4 (amended): if the (non-all-whitespace) input rewrites without
error and every rewritten line is blank after comment stripping - the only
way the main pass can finish with zero sections opened - the closing emission
is *not* skipped: `section_end_formatter` is invoked with the empty string
(the initial `last_section_name`), and its result enters the final filtered
join. -/
theorem c4_amended (a : Assembler) (text nt : String)
    (h0 : text.toList.all isPySpace = false)
    (h1 : rewriteText text = .ok nt)
    (h2 : ∀ l ∈ linesOf nt, isBlank l = true) :
    assemble a text false = .ok (.text (joinOutput a.start_formatter
      [a.instruction_set.section_end_formatter ""] a.end_formatter)) := by
  unfold assemble
  rw [assembleJoined_steps a text nt h0 h1,
    mainPass_all_blank a.instruction_set (linesOf nt) h2 0 ""]
  rfl

/-- Concrete instance of `c4_amended` on the comment-only input `"; x"`. -/
theorem c4_witness :
    ("; x" : String).toList.all isPySpace = false ∧
    rewriteText "; x" = .ok "" ∧ (∀ l ∈ linesOf "", isBlank l = true) ∧
    assemble demoAsm "; x" false = .ok (.text (joinOutput "" ["END "] "")) := by
  have hempty : ∀ l ∈ linesOf "", isBlank l = true := by
    intro l hl
    rw [show linesOf "" = ([] : List String) from rfl] at hl
    exact absurd hl (List.not_mem_nil l)
  exact ⟨rfl, rfl, hempty, c4_amended demoAsm "; x" "" rfl rfl hempty⟩

/-- Claim C5: the spec says a label identifier must match
`[A-Za-z_][A-Za-z_0-9]*`, so `"1:"` would not be a label or section boundary.
The code's regex uses `\w` for the first character, which includes digits, so
`"1:"` is accepted as a section boundary: the input `"1:\nnop"` assembles
into a section named `1`. -/
theorem c5_code_eval :
    assemble demoAsm "1:\nnop" false = .ok (.text "START 1\nNOP\nEND 1") ∧
    fullmatch sectionRE ("1:" : String).toList = some [(0, "1")] :=
  ⟨rfl, rfl⟩

/-- Claim C7 counterexample: the claim quantifies over every Assembler, but
for the assembler whose only instruction has the mnemonic `" mov"` (a leading
space, which the source accepts), the single-line input succeeds while the
split two-line input is rejected, so the two results differ. -/
theorem c7_counterexample :
    assemble spaceAsm "foo: mov a, b" false ≠ assemble spaceAsm "foo:\nmov a, b" false := by
  intro h
  rw [show assemble spaceAsm "foo: mov a, b" false =
      .ok (.text "START foo\nMOV\nEND foo") from rfl,
    show assemble spaceAsm "foo:\nmov a, b" false =
      .error (.assemblerError
        "invalid syntax at line 3 (as specified by given instruction set)") from rfl] at h
  exact Except.noConfusion h


/-- Claim C7 (amended): for every Assembler whose instruction mnemonics all
begin with a non-whitespace character, if both the one-line input
`"foo: mov a, b"` and the pre-split input `"foo:\nmov a, b"` assemble
successfully, the two outputs are equal.  (Unrestricted equality fails twice:
a whitespace-leading mnemonic makes one run succeed and the other fail - the
counterexample - and on the rejection path the cited line numbers differ,
2 versus 3, because the label split inserts a blank line.) -/
theorem c7_amended (a : Assembler)
    (hm : ∀ i ∈ a.instruction_set.instructions,
      ∃ c M, i.mnemonic.toList = c :: M ∧ isPySpace c = false)
    (o1 o2 : AsmOutput)
    (h1 : assemble a "foo: mov a, b" false = .ok o1)
    (h2 : assemble a "foo:\nmov a, b" false = .ok o2) : o1 = o2 := by
  obtain ⟨j1, hj1, ho1⟩ := assemble_false_ok h1
  obtain ⟨j2, hj2, ho2⟩ := assemble_false_ok h2
  have hkey : findMatch a.instruction_set.instructions " mov a, b" =
      findMatch a.instruction_set.instructions "mov a, b" :=
    findMatch_cons_space a.instruction_set.instructions hm (("mov a, b" : String).toList)
  cases hD : findMatch a.instruction_set.instructions "mov a, b" with
  | none =>
    exfalso
    have hbad : assembleJoined a "foo: mov a, b" =
        .error ("invalid syntax at line " ++ toString (0 + 1 + 1) ++
          " (as specified by given instruction set)") := by
      rw [assembleJoined_steps a "foo: mov a, b" "foo:\n mov a, b" rfl rfl,
        show linesOf "foo:\n mov a, b" = ["foo:", " mov a, b"] from rfl,
        mainPass_section a.instruction_set "foo:" [" mov a, b"] 0 0 "" [(0, "foo")] rfl,
        mainPass_stmt_none a.instruction_set " mov a, b" [] (0 + 1) (0 + 1)
          ((capLookup [(0, "foo")] 0).getD "") rfl rfl (hkey.trans hD)]
    rw [hbad] at hj1
    exact Except.noConfusion hj1
  | some ic =>
    obtain ⟨inst, caps⟩ := ic
    have hA : assembleJoined a "foo: mov a, b" = .ok (joinOutput a.start_formatter
        [a.instruction_set.section_start_formatter "foo",
         inst.formatter (pyGroups inst.numGroups caps),
         a.instruction_set.section_end_formatter "foo"] a.end_formatter) := by
      rw [assembleJoined_steps a "foo: mov a, b" "foo:\n mov a, b" rfl rfl,
        show linesOf "foo:\n mov a, b" = ["foo:", " mov a, b"] from rfl,
        mainPass_section a.instruction_set "foo:" [" mov a, b"] 0 0 "" [(0, "foo")] rfl,
        mainPass_stmt_ok a.instruction_set " mov a, b" [] (0 + 1) (0 + 1)
          ((capLookup [(0, "foo")] 0).getD "") inst caps rfl rfl (hkey.trans hD)
          (by omega)]
      rfl
    have hB : assembleJoined a "foo:\nmov a, b" = .ok (joinOutput a.start_formatter
        [a.instruction_set.section_start_formatter "foo",
         inst.formatter (pyGroups inst.numGroups caps),
         a.instruction_set.section_end_formatter "foo"] a.end_formatter) := by
      rw [assembleJoined_steps a "foo:\nmov a, b" "foo:\n\nmov a, b" rfl rfl,
        show linesOf "foo:\n\nmov a, b" = ["foo:", "", "mov a, b"] from rfl,
        mainPass_section a.instruction_set "foo:" ["", "mov a, b"] 0 0 "" [(0, "foo")] rfl,
        mainPass_blank a.instruction_set "" ["mov a, b"] (0 + 1) (0 + 1)
          ((capLookup [(0, "foo")] 0).getD "") rfl rfl,
        mainPass_stmt_ok a.instruction_set "mov a, b" [] (0 + 1 + 1) (0 + 1)
          ((capLookup [(0, "foo")] 0).getD "") inst caps rfl rfl hD (by omega)]
      rfl
    rw [hA] at hj1
    rw [hB] at hj2
    injection hj1 with e1
    injection hj2 with e2
    rw [ho1, ho2, ← e1, ← e2]

/-- Concrete instance of `c7_amended`: with the well-formed mnemonic `mov`,
both spellings of the input produce `START foo`, `MOV`, `END foo`. -/
theorem c7_witness :
    (∀ i ∈ movAsm.instruction_set.instructions,
      ∃ c M, i.mnemonic.toList = c :: M ∧ isPySpace c = false) ∧
    assemble movAsm "foo: mov a, b" false = .ok (.text "START foo\nMOV\nEND foo") ∧
    assemble movAsm "foo:\nmov a, b" false = .ok (.text "START foo\nMOV\nEND foo") ∧
    (AsmOutput.text "START foo\nMOV\nEND foo" = AsmOutput.text "START foo\nMOV\nEND foo") := by
  have hm : ∀ i ∈ movAsm.instruction_set.instructions,
      ∃ c M, i.mnemonic.toList = c :: M ∧ isPySpace c = false := by
    intro i hi
    rw [show movAsm.instruction_set.instructions = [movInstr] from rfl] at hi
    rw [List.mem_singleton.mp hi]
    exact ⟨'m', ['o', 'v'], rfl, rfl⟩
  exact ⟨hm, rfl, rfl,
    c7_amended movAsm hm (.text "START foo\nMOV\nEND foo")
      (.text "START foo\nMOV\nEND foo") rfl rfl ▸ rfl⟩

/-- Claim C8: `assemble` is deterministic across repeated calls with the same
input and instruction set.  In this embedding the instruction formatters and
section formatters are pure Lean functions (matching the claim's hypothesis
that the Python formatter callables are pure), and `assemble` is a function
of the assembler and the input alone, so two identical calls are equal. -/
theorem c8_deterministic (a : Assembler) (text : String) (binary_output : Bool) :
    assemble a text binary_output = assemble a text binary_output := rfl

/-- Claim C9: an empty prologue string or epilogue string is dropped by the
falsy-filter of the final join exactly like empty emitted entries, so it
contributes no leading or trailing blank line to `assemble`'s output. -/
theorem c9_empty_affixes (entries : List String) (start stop : String) :
    joinOutput "" entries stop = joinWithNl ((entries ++ [stop]).filter fun s => s != "") ∧
    joinOutput start entries "" = joinWithNl ((start :: entries).filter fun s => s != "") := by
  constructor
  · rw [joinOutput, List.cons_append, List.filter_cons]
    simp
  · rw [joinOutput, List.filter_append]
    simp

/-- Claim C10: the compiled pattern puts only `\s*` (zero or more whitespace)
between the mnemonic and the first argument group, so a line that is the
mnemonic immediately followed by text fully matching the single argument
grammar is a full match of the instruction pattern. -/
theorem c10_no_space_needed (M : String) (g : RE) (x : String)
    (f : List (Option String) → String) (caps : Caps)
    (h : fullmatch g x.toList = some caps) :
    (fullmatch (Instruction.patternRE ⟨M, [g], f⟩) ((M ++ x : String)).toList).isSome = true := by
  have hx : ([], caps) ∈ matchList g x.toList := mem_of_fullmatch h
  have h5 : (([] : List Char), ([] : Caps)) ∈ matchList wsStar [] :=
    matchList_star_self (.cls isPySpace) []
  have h4 : (([] : List Char), caps ++ [(0, String.mk x.toList)]) ∈
      matchList (.group 0 g) x.toList := matchList_group_full hx
  have h3 := matchList_seq_intro h4 h5
  have hws_x : (x.toList, ([] : Caps)) ∈ matchList wsStar x.toList :=
    matchList_star_self (.cls isPySpace) x.toList
  have h2 := matchList_seq_intro hws_x h3
  have h1 := matchList_seq_intro (matchList_litStr_self M.toList x.toList) h2
  have hws_all : (M.toList ++ x.toList, ([] : Caps)) ∈
      matchList wsStar (M.toList ++ x.toList) :=
    matchList_star_self (.cls isPySpace) (M.toList ++ x.toList)
  have h0 := matchList_seq_intro hws_all h1
  rw [show Instruction.patternRE ⟨M, [g], f⟩ =
      .seq wsStar (.seq (litStr M.toList) (.seq wsStar (.seq (.group 0 g) wsStar)))
    from rfl,
    show ((M ++ x : String)).toList = M.toList ++ x.toList from toList_append M x]
  exact fullmatch_isSome_of_mem h0

/-- Concrete instance of `c10_no_space_needed`: `"mova"` fully matches the
pattern of `mov` with one `\w+` argument. -/
theorem c10_witness :
    fullmatch wordPlusRE ("a" : String).toList = some [] ∧
    (fullmatch (Instruction.patternRE ⟨"mov", [wordPlusRE], demoFmt⟩)
      (("mov" ++ "a" : String)).toList).isSome = true :=
  ⟨rfl, c10_no_space_needed "mov" wordPlusRE "a" demoFmt [] rfl⟩

end Assembling






